import Mathlib

/-!
Verification of the cat-ai-frontend core operations.

Shallow embedding of the two source files:
  * `backend/main.py`  — classification / undo engine, category discovery,
    paginated image listing, collision-safe path naming;
  * `scripts/prune_by_minute.py` — minute-based deduplication planner.

Modelling conventions:
  * A filesystem path is an `FPath`: parent directory (as a plain string),
    filename stem, and extension (Python's `Path.stem` / `Path.suffix` split
    is taken as given rather than re-parsed from a string).
  * The filesystem is the list of paths of currently existing files,
    used set-wise; `p.exists()` is list membership.
  * `shutil.move` always succeeds (no I/O fault model), so the
    `RelocationFailed` / `RestoreFailed` error kinds never arise here.
  * An image reference is modelled after decoding: the `uuid|path` token of
    the source splits into the uuid part and the source path, and two tokens
    are equal exactly when both components are equal.
  * Strings are compared and lower-cased through their character data with
    structural functions, matching Python's code-point semantics.
  * Regex digit classes and the case mapping are modelled over ASCII;
    Python's `\d` additionally matches non-ASCII Unicode digits, which do
    not occur in the structured filenames concerned.
-/

/-! ## Data model and operations (shallow embedding of the source) -/

/-- A filesystem path: directory, filename stem, and extension (with dot),
mirroring Python `Path` with its `stem` / `suffix` decomposition. -/
structure FPath where
  dir : String
  stem : String
  ext : String
deriving DecidableEq, Repr

/-- Decimal digit character for `d < 10` (code point 48 is '0'). -/
def dChar (d : Nat) : Char := Char.ofNat (48 + d)

/-- Decimal digits of `n`, most significant first, with explicit fuel so the
recursion is structural.  With `fuel > n` this is the full decimal form,
modelling Python's rendering of `i` in the f-string of `_unique_path`. -/
def digitsCore (fuel n : Nat) : List Char :=
  match fuel with
  | 0 => []
  | fuel + 1 => if n < 10 then [dChar n] else digitsCore fuel (n / 10) ++ [dChar (n % 10)]

/-- Decimal string of a natural number. -/
def natDecimal (n : Nat) : String := String.mk (digitsCore (n + 1) n)

/-- The candidate `<stem>_<i><ext>` built by `_unique_path`'s loop body
(`path.with_name(f"{path.stem}_{i}{path.suffix}")`, main.py line 97). -/
def withName (p : FPath) (i : Nat) : FPath :=
  ⟨p.dir, p.stem ++ "_" ++ natDecimal i, p.ext⟩

/-- The search loop of `_unique_path` (main.py lines 95-100): try
`<stem>_<i><ext>` for `i = 1, 2, ...` and return the first candidate that
does not exist.  `fuel` bounds the structural recursion; `_unique_path`
supplies enough fuel for the search to always terminate at a free name. -/
def uniqueAux (fs : List FPath) (p : FPath) : Nat → Nat → FPath
  | 0, i => withName p i
  | fuel + 1, i => if withName p i ∈ fs then uniqueAux fs p fuel (i + 1) else withName p i

/-- `_unique_path` (main.py lines 91-100): return `path` if it does not
exist, else the first `<stem>_<n><ext>` (n = 1, 2, ...) that does not
exist.  `fs` is the set of existing paths. -/
def _unique_path (fs : List FPath) (p : FPath) : FPath :=
  if p ∈ fs then uniqueAux fs p (fs.length + 1) 1 else p

/-- Numeric value of a decimal digit character. -/
def digVal (c : Char) : Nat := c.toNat - 48

/-- Numeric value of a decimal character string, used to invert `digitsCore`. -/
def chVal (cs : List Char) : Nat := cs.foldl (fun a c => 10 * a + digVal c) 0

/-- `N` successive colliding requests: each request asks `_unique_path` for
the same occupied candidate and then claims (creates) the returned path, as
the classify / undo critical sections do. -/
def claimSeq (fs : List FPath) (p : FPath) : Nat → List FPath
  | 0 => []
  | n + 1 =>
    let q := _unique_path fs p
    q :: claimSeq (q :: fs) p n

/-- A decoded image reference token.  The source issues
`str(uuid.uuid4()) + '|' + str(p)` and later splits it at the first `'|'`;
two tokens compare equal exactly when the uuid part and the encoded source
path both do, which this structure's equality mirrors. -/
structure ImageRef where
  uuidPart : String
  srcPath : FPath
deriving DecidableEq, Repr

/-- One ledger entry of `MOVE_HISTORY` (main.py line 57):
`{image_id, original_path, new_path}`. -/
structure MoveRecord where
  image_id : ImageRef
  original_path : FPath
  new_path : FPath
deriving DecidableEq, Repr

/-- Mutable process state touched by classify / undo: the filesystem and the
in-memory move ledger. -/
structure SysState where
  fs : List FPath
  history : List MoveRecord
deriving DecidableEq, Repr

deriving instance DecidableEq for Except

/-- Failure kinds of `classify` that arise in this model (the I/O failure
`RelocationFailed` and the malformed-token case cannot arise, see the header
comment). -/
inductive ClassifyError where
  | invalidCategory
  | sourceNotFound
deriving DecidableEq, Repr

/-- Failure kind of `undo` arising in this model. -/
inductive UndoError where
  | noSuchMove
deriving DecidableEq, Repr

/-- Directory of the category folder `CLASSIFIED_ROOT / category`. -/
def categoryDir (cat : String) : String := "classified/" ++ cat

/-- `classify` (main.py lines 102-124): validate the category, check the
decoded source still exists, compute a collision-safe destination inside the
category folder (same base name), move the file there, and append a ledger
record.  On failure the state is returned unchanged. -/
def classify (validCats : List String) (s : SysState) (ref : ImageRef) (cat : String) :
    SysState × Except ClassifyError FPath :=
  if cat ∉ validCats then (s, .error .invalidCategory)
  else
    let orig := ref.srcPath
    if orig ∉ s.fs then (s, .error .sourceNotFound)
    else
      let target := _unique_path s.fs ⟨categoryDir cat, orig.stem, orig.ext⟩
      (⟨target :: s.fs.filter (fun q => q ≠ orig),
        s.history ++ [⟨ref, orig, target⟩]⟩,
       .ok target)

/-- Split the ledger at the most recently appended record matching `ref`
(the `for i in range(len(MOVE_HISTORY)-1, -1, -1)` scan of main.py
lines 129-131): returns the records before it, the record, and the records
after it, or `none` when no record matches. -/
def splitLastMatch (ref : ImageRef) : List MoveRecord → 
    Option (List MoveRecord × MoveRecord × List MoveRecord)
  | [] => none
  | m :: rest =>
    match splitLastMatch ref rest with
    | some (b, x, a) => some (m :: b, x, a)
    | none => if m.image_id = ref then some ([], m, rest) else none

/-- `undo` (main.py lines 126-145): find the most recent ledger record for
the reference; if none, fail with `NoSuchMove` (HTTP 404).  Otherwise, when
the recorded new location still exists, move it back to the original
location — or to a collision-safe alternate if the original is occupied.
In all matched cases the record is popped and `original_path` is reported,
exactly as the source does. -/
def undo (s : SysState) (ref : ImageRef) : SysState × Except UndoError FPath :=
  match splitLastMatch ref s.history with
  | none => (s, .error .noSuchMove)
  | some (b, m, a) =>
    if m.new_path ∈ s.fs then
      let restore := if m.original_path ∉ s.fs then m.original_path
                     else _unique_path s.fs m.original_path
      (⟨restore :: s.fs.filter (fun q => q ≠ m.new_path), b ++ a⟩, .ok m.original_path)
    else
      (⟨s.fs, b ++ a⟩, .ok m.original_path)

/-- One entry of a directory listing: filename stem, extension, and whether
it is a regular file (`Path.is_file()`). -/
structure DirEntry where
  stem : String
  ext : String
  isFile : Bool
deriving DecidableEq, Repr

/-- Python `str.lower()` restricted to the per-character case mapping, which
agrees with it on ASCII filenames. -/
def strLower (s : String) : String := String.mk (s.data.map Char.toLower)

/-- The image-extension allow-list `{'.jpg','.jpeg','.png','.webp','.gif'}`
used both by discovery (main.py line 37) and by the lister (line 78). -/
def imageExts : List String := [".jpg", ".jpeg", ".png", ".webp", ".gif"]

/-- `_discover_cat_names` (main.py lines 33-42): each regular file of the
(sorted) reference-directory listing whose lower-cased extension is in the
allow-list contributes its lower-cased stem, except the stems
`'unknown'` and `'not_cat'`, which are skipped. -/
def _discover_cat_names (entries : List DirEntry) : List String :=
  entries.filterMap (fun p =>
    if p.isFile = true ∧ strLower p.ext ∈ imageExts then
      if strLower p.stem = "unknown" ∨ strLower p.stem = "not_cat" then none
      else some (strLower p.stem)
    else none)

/-- The `key` fields of `list_categories` (main.py lines 160-196): the
discovered names in discovery order, then the two specials `'unknown'` and
`'not_a_cat'` appended last. -/
def categoryKeys (entries : List DirEntry) : List String :=
  _discover_cat_names entries ++ ["unknown", "not_a_cat"]

/-- Lexicographic comparison of character data by code point, Python's
string ordering. -/
def lexLe : List Char → List Char → Bool
  | [], _ => true
  | _ :: _, [] => false
  | a :: as, b :: bs =>
    if a.toNat < b.toNat then true
    else if b.toNat < a.toNat then false
    else lexLe as bs

/-- Full filename of a directory entry. -/
def entryName (e : DirEntry) : String := e.stem ++ e.ext

/-- Filename order used by `sorted(feeder_path.glob('*'))` for entries of a
single directory. -/
def nameLe (a b : DirEntry) : Bool := lexLe (entryName a).data (entryName b).data

/-- Stable insertion of `a` into `l`: `a` is placed before the first element
it compares `le` to.  Building block of the model of Python `sorted`. -/
def insertSorted (le : α → α → Bool) (a : α) : List α → List α
  | [] => [a]
  | b :: bs => if le a b then a :: b :: bs else b :: insertSorted le a bs

/-- Stable sort by `le`; on a total preorder it produces the same output as
Python's (stable) `sorted`. -/
def sortBy (le : α → α → Bool) : List α → List α
  | [] => []
  | a :: as => insertSorted le a (sortBy le as)

/-- Whether the lister accepts the entry: a regular file whose lower-cased
extension is in the allow-list (main.py line 79). -/
def eligible (e : DirEntry) : Bool := e.isFile && imageExts.contains (strLower e.ext)

/-- `list_images` (main.py lines 68-89): sort the directory entries by
filename, keep eligible files, clamp a negative offset to 0 and the limit
into `[1, 1000]`, and return the page `[offset, offset+limit)` together with
the total number of matching files. -/
def list_images (entries : List DirEntry) (offset limit : Int) : List DirEntry × Nat :=
  let all_files := (sortBy nameLe entries).filter eligible
  let total := all_files.length
  let off := if offset < 0 then (0 : Int) else offset
  let lim := max 1 (min limit 1000)
  ((all_files.drop off.toNat).take lim.toNat, total)

/-- One file of the planner's population: its filename and its last-modified
timestamp (`st_mtime`, modelled as an integer; only its ordering is used). -/
structure PFile where
  name : String
  mtime : Int
deriving DecidableEq, Repr

/-- The three values of `STRATEGIES`; `choose_keep`'s unknown-strategy
`ValueError` branch is unreachable over this type. -/
inductive Strategy where
  | first_seen
  | oldest
  | newest
deriving DecidableEq, Repr

/-- Expect the literal characters `lit` at the head of `cs`, returning the
remainder. -/
def dropLit : List Char → List Char → Option (List Char)
  | [], cs => some cs
  | _ :: _, [] => none
  | l :: ls, c :: cs => if c = l then dropLit ls cs else none

/-- Take exactly `n` characters satisfying `p`, returning them and the
remainder. -/
def takeCount (p : Char → Bool) : Nat → List Char → Option (List Char × List Char)
  | 0, cs => some ([], cs)
  | _ + 1, [] => none
  | n + 1, c :: cs =>
    if p c then (takeCount p n cs).map (fun r => (c :: r.1, r.2)) else none

/-- A character of the class `[A-Za-z0-9]`. -/
def isAlnum (c : Char) : Bool := c.isAlpha || c.isDigit

/-- `minute_key` (prune_by_minute.py lines 32-38): match the anchored
pattern `processed_(\d{8})_(\d{6})_\d+\.[A-Za-z0-9]+$` against the filename
and return `YYYYMMDD_HHMM` (the date group, an underscore, and the first
four digits of the time group), or `None` when the name does not match.
The pattern is deterministic — each quantified class is disjoint from the
character that follows it — so maximal munch is exact. -/
def minute_key (name : String) : Option String :=
  match dropLit "processed_".data name.data with
  | none => none
  | some r1 =>
    match takeCount Char.isDigit 8 r1 with
    | none => none
    | some (date, r2) =>
      match r2 with
      | '_' :: r3 =>
        match takeCount Char.isDigit 6 r3 with
        | none => none
        | some (hms, r4) =>
          match r4 with
          | '_' :: r5 =>
            let digs := r5.takeWhile Char.isDigit
            let rest := r5.dropWhile Char.isDigit
            if digs.isEmpty then none
            else
              match rest with
              | '.' :: ex =>
                if ex.isEmpty || ex.any (fun c => !(isAlnum c)) then none
                else some (String.mk date ++ "_" ++ String.mk (hms.take 4))
              | _ => none
          | _ => none
      | _ => none

/-- Python `min(files, key=mtime)` over `f :: fs`: the first element with
the minimal key. -/
def pyMinBy (f : PFile) (fs : List PFile) : PFile :=
  fs.foldl (fun best x => if x.mtime < best.mtime then x else best) f

/-- Python `max(files, key=mtime)` over `f :: fs`: the first element with
the maximal key. -/
def pyMaxBy (f : PFile) (fs : List PFile) : PFile :=
  fs.foldl (fun best x => if best.mtime < x.mtime then x else best) f

/-- `choose_keep` (prune_by_minute.py lines 43-51).  The `none` case stands
for the `IndexError` a call on an empty group would raise in Python; the
planner only ever calls it on non-empty groups. -/
def choose_keep (files : List PFile) (strat : Strategy) : Option PFile :=
  match files with
  | [] => none
  | f :: fs =>
    match strat with
    | .first_seen => some f
    | .oldest => some (pyMinBy f fs)
    | .newest => some (pyMaxBy f fs)

/-- `groups.setdefault(mk, []).append(f)` over an insertion-ordered dict,
modelled as an association list: append to the entry with key `k`, or append
a new `(k, [f])` entry at the end. -/
def addToGroups (gs : List (String × List PFile)) (k : String) (f : PFile) :
    List (String × List PFile) :=
  match gs with
  | [] => [(k, [f])]
  | (k', fs) :: rest =>
    if k' = k then (k', fs ++ [f]) :: rest else (k', fs) :: addToGroups rest k f

/-- One step of the grouping loop of `plan` (lines 56-60): files without a
minute key are skipped, the rest are bucketed by their key. -/
def gstep (gs : List (String × List PFile)) (f : PFile) : List (String × List PFile) :=
  match minute_key f.name with
  | none => gs
  | some k => addToGroups gs k f

/-- The bucket map of `plan`, in first-seen key order. -/
def groupByMinute (files : List PFile) : List (String × List PFile) :=
  files.foldl gstep []

/-- The keep-contribution of one bucket (lines 63-68): a singleton group is
kept outright; a larger group contributes its chosen survivor. -/
def groupKeep (g : List PFile) (strat : Strategy) : List PFile :=
  match g with
  | [f] => [f]
  | fs =>
    match choose_keep fs strat with
    | some chosen => [chosen]
    | none => []

/-- The delete-contribution of one bucket (lines 69-71): every member that
differs from the chosen survivor. -/
def groupRemove (g : List PFile) (strat : Strategy) : List PFile :=
  match g with
  | [_] => []
  | fs =>
    match choose_keep fs strat with
    | some chosen => fs.filter (fun f => f ≠ chosen)
    | none => []

/-- One step of the keep/delete accumulation loop of `plan` (lines 63-71). -/
def pstep (strat : Strategy) (acc : List PFile × List PFile) (kg : String × List PFile) :
    List PFile × List PFile :=
  match kg.2 with
  | [f] => (acc.1 ++ [f], acc.2)
  | fs =>
    match choose_keep fs strat with
    | some chosen => (acc.1 ++ [chosen], acc.2 ++ fs.filter (fun f => f ≠ chosen))
    | none => acc

/-- `plan` (prune_by_minute.py lines 53-72) on an already-collected file
population: bucket by minute key and accumulate the keep and delete lists
bucket by bucket. -/
def plan (files : List PFile) (strat : Strategy) : List PFile × List PFile :=
  (groupByMinute files).foldl (pstep strat) ([], [])

def w5p : FPath := ⟨"classified/tom", "img", ".jpg"⟩

def w9s : SysState := ⟨[], []⟩

def w9ref : ImageRef := ⟨"u0", ⟨"dualfeeder/cam1/cats", "shot", ".jpg"⟩⟩

def w10entries : List DirEntry := [⟨"a", ".jpg", true⟩, ⟨"b", ".png", true⟩]

def exEntries : List DirEntry :=
  [⟨"cc", ".jpg", true⟩, ⟨"aa", ".jpg", true⟩, ⟨"ee", ".png", true⟩,
   ⟨"dd", ".webp", true⟩, ⟨"bb", ".jpeg", true⟩]

def w6a : PFile := ⟨"processed_20250101_120000_000001.jpg", 10⟩

def w6b : PFile := ⟨"processed_20250101_120030_000002.jpg", 20⟩

def w6c : PFile := ⟨"notes.txt", 5⟩

def ex1 : PFile := ⟨"processed_20250816_060153_097913.jpg", 100⟩

def ex2 : PFile := ⟨"processed_20250816_060130_000001.jpg", 200⟩

def ex3 : PFile := ⟨"processed_20250816_060259_000002.jpg", 150⟩

def w3src : FPath := ⟨"officefeeder1/cats", "shot", ".jpg"⟩

def w3s : SysState := ⟨[w3src], []⟩

def w3ref : ImageRef := ⟨"u1", w3src⟩

def c1orig : FPath := ⟨"studyfeeder/cats", "x", ".jpg"⟩

def c1new : FPath := ⟨"classified/unknown", "x", ".jpg"⟩

def c1ref : ImageRef := ⟨"u2", c1orig⟩

def c1state : SysState := ⟨[], [⟨c1ref, c1orig, c1new⟩]⟩

def c4orig : FPath := ⟨"dualfeeder/cam2/cats", "y", ".jpg"⟩

def c4new : FPath := ⟨"classified/unknown", "y", ".jpg"⟩

def c4ref : ImageRef := ⟨"u3", c4orig⟩

def c4state : SysState := ⟨[c4orig, c4new], [⟨c4ref, c4orig, c4new⟩]⟩

def c2entry : DirEntry := ⟨"not_a_cat", ".jpg", true⟩

/-! ## Infrastructure lemmas and claim theorems -/

theorem digVal_dChar (d : Nat) (h : d < 10) : digVal (dChar d) = d := by
  interval_cases d <;> decide

theorem chVal_append_singleton (cs : List Char) (c : Char) :
    chVal (cs ++ [c]) = 10 * chVal cs + digVal c := by
  simp [chVal, List.foldl_append]

theorem chVal_digitsCore (n fuel : Nat) (h : n < fuel) :
    chVal (digitsCore fuel n) = n := by
  induction n using Nat.strong_induction_on generalizing fuel with
  | _ n ih =>
    match fuel with
    | 0 => omega
    | f + 1 =>
      rw [digitsCore]
      by_cases h10 : n < 10
      · simp only [h10, if_true]
        simp [chVal, digVal_dChar n h10]
      · simp only [h10, if_false]
        rw [chVal_append_singleton]
        have hdiv : n / 10 < n := Nat.div_lt_self (by omega) (by omega)
        rw [ih (n / 10) hdiv f (by omega)]
        rw [digVal_dChar (n % 10) (Nat.mod_lt _ (by omega))]
        omega

theorem natDecimal_inj {i j : Nat} (h : natDecimal i = natDecimal j) : i = j := by
  have hd : digitsCore (i + 1) i = digitsCore (j + 1) j := congrArg String.data h
  have hi := chVal_digitsCore i (i + 1) (by omega)
  have hj := chVal_digitsCore j (j + 1) (by omega)
  rw [hd, hj] at hi
  exact hi.symm

theorem withName_inj {p : FPath} {i j : Nat} (h : withName p i = withName p j) : i = j := by
  have hstem : p.stem ++ "_" ++ natDecimal i = p.stem ++ "_" ++ natDecimal j :=
    congrArg FPath.stem h
  have hdata := congrArg String.data hstem
  simp only [String.data_append, List.append_assoc, List.append_cancel_left_eq,
    List.singleton_append, List.cons.injEq, true_and] at hdata
  exact natDecimal_inj (String.ext hdata)

theorem digitsCore_ne_nil (n : Nat) : digitsCore (n + 1) n ≠ [] := by
  rw [digitsCore]
  by_cases h10 : n < 10
  · simp [h10]
  · simp [h10]

/-- A collision candidate is never the original path: its stem is strictly
longer. -/
theorem withName_ne_self (p : FPath) (i : Nat) : withName p i ≠ p := by
  intro h
  have hstem : p.stem ++ "_" ++ natDecimal i = p.stem := congrArg FPath.stem h
  have hdata := congrArg String.data hstem
  simp only [String.data_append] at hdata
  have hlen := congrArg List.length hdata
  simp only [List.length_append] at hlen
  have hne : (natDecimal i).data ≠ [] := digitsCore_ne_nil i
  have : (natDecimal i).data.length ≠ 0 := fun hz => hne (List.length_eq_zero.mp hz)
  have hul : ("_".data).length = 1 := by decide
  omega

/-- Pigeonhole: among the first `fs.length + 1` collision candidates at least
one name is free, so the source's unbounded `while` loop always terminates
within that bound. -/
theorem exists_free_candidate (fs : List FPath) (p : FPath) :
    ∃ j, 1 ≤ j ∧ j ≤ fs.length + 1 ∧ withName p j ∉ fs := by
  by_contra hall
  push_neg at hall
  set l : List FPath := (List.range (fs.length + 1)).map (fun k => withName p (k + 1)) with hl
  have hnodup : l.Nodup := by
    refine List.Nodup.map ?_ (List.nodup_range _)
    intro a b hab
    have := withName_inj hab
    omega
  have hsub : l ⊆ fs := by
    intro x hx
    rw [hl] at hx
    simp only [List.mem_map, List.mem_range] at hx
    obtain ⟨k, hk, rfl⟩ := hx
    exact hall (k + 1) (by omega) (by omega)
  have hcard1 : l.toFinset.card = l.length := List.toFinset_card_of_nodup hnodup
  have hcard2 : l.toFinset ⊆ fs.toFinset := by
    intro x hx
    rw [List.mem_toFinset] at hx ⊢
    exact hsub hx
  have hcard3 : fs.toFinset.card ≤ fs.length := List.toFinset_card_le fs
  have hlen : l.length = fs.length + 1 := by simp [hl]
  have := Finset.card_le_card hcard2
  omega

/-- The search loop returns the first free candidate at or after index `i`,
provided a free candidate lies within the fuel. -/
theorem uniqueAux_spec (fs : List FPath) (p : FPath) (fuel i : Nat)
    (hex : ∃ j, i ≤ j ∧ j < i + fuel ∧ withName p j ∉ fs) :
    ∃ n, i ≤ n ∧ uniqueAux fs p fuel i = withName p n ∧ withName p n ∉ fs ∧
      ∀ m, i ≤ m → m < n → withName p m ∈ fs := by
  induction fuel generalizing i with
  | zero =>
    obtain ⟨j, hj1, hj2, _⟩ := hex
    omega
  | succ fuel ih =>
    rw [uniqueAux]
    by_cases hmem : withName p i ∈ fs
    · simp only [hmem, if_true]
      obtain ⟨j, hj1, hj2, hj3⟩ := hex
      have hji : j ≠ i := fun he => hj3 (he ▸ hmem)
      obtain ⟨n, hn1, hn2, hn3, hn4⟩ := ih (i + 1) ⟨j, by omega, by omega, hj3⟩
      refine ⟨n, by omega, hn2, hn3, ?_⟩
      intro m hm1 hm2
      by_cases hmi : m = i
      · exact hmi ▸ hmem
      · exact hn4 m (by omega) hm2
    · simp only [hmem, if_false]
      exact ⟨i, le_refl i, rfl, hmem, fun m hm1 hm2 => absurd (lt_of_le_of_lt hm1 hm2)
        (lt_irrefl i)⟩

/-- `_unique_path` never returns an existing path. -/
theorem _unique_path_not_mem (fs : List FPath) (p : FPath) : _unique_path fs p ∉ fs := by
  rw [_unique_path]
  by_cases hp : p ∈ fs
  · simp only [hp, if_true]
    obtain ⟨j, hj1, hj2, hj3⟩ := exists_free_candidate fs p
    obtain ⟨n, _, heq, hfree, _⟩ :=
      uniqueAux_spec fs p (fs.length + 1) 1 ⟨j, hj1, by omega, hj3⟩
    rw [heq]
    exact hfree
  · simp [hp]

/-- `_unique_path` returns the candidate unchanged when it is unoccupied. -/
theorem _unique_path_of_not_mem {fs : List FPath} {p : FPath} (h : p ∉ fs) :
    _unique_path fs p = p := by
  rw [_unique_path]
  simp [h]

/-- When the candidate is occupied, `_unique_path` returns the first free
`<stem>_<n><ext>` in increasing order of `n` starting at 1. -/
theorem _unique_path_first_free {fs : List FPath} {p : FPath} (h : p ∈ fs) :
    ∃ n, 1 ≤ n ∧ _unique_path fs p = withName p n ∧ withName p n ∉ fs ∧
      ∀ m, 1 ≤ m → m < n → withName p m ∈ fs := by
  rw [_unique_path]
  simp only [h, if_true]
  obtain ⟨j, hj1, hj2, hj3⟩ := exists_free_candidate fs p
  exact uniqueAux_spec fs p (fs.length + 1) 1 ⟨j, hj1, by omega, hj3⟩

theorem claimSeq_eq (p : FPath) (N : Nat) :
    ∀ (fs : List FPath) (k : Nat), p ∈ fs →
      (∀ i, 1 ≤ i → (withName p i ∈ fs ↔ i ≤ k)) →
      claimSeq fs p N = (List.range N).map (fun t => withName p (k + t + 1)) := by
  induction N with
  | zero => intro fs k _ _; rfl
  | succ N ih =>
    intro fs k hp hk
    rw [claimSeq]
    obtain ⟨n, hn1, heq, hfree, hbelow⟩ := _unique_path_first_free hp
    have hnk : n = k + 1 := by
      by_contra hne
      rcases Nat.lt_or_ge n (k + 1) with hlt | hge
      · exact hfree ((hk n hn1).mpr (by omega))
      · have : withName p (k + 1) ∈ fs := hbelow (k + 1) (by omega) (by omega)
        have := (hk (k + 1) (by omega)).mp this
        omega
    have hrec : claimSeq (_unique_path fs p :: fs) p N =
        (List.range N).map (fun t => withName p ((k + 1) + t + 1)) := by
      refine ih (_unique_path fs p :: fs) (k + 1) (List.mem_cons_of_mem _ hp) ?_
      intro i hi
      rw [heq, hnk]
      constructor
      · intro hmem
        rcases List.mem_cons.mp hmem with he | hm
        · have := withName_inj he
          omega
        · have := (hk i hi).mp hm
          omega
      · intro hle
        rcases Nat.lt_or_ge i (k + 1) with hlt | hge
        · exact List.mem_cons_of_mem _ ((hk i hi).mpr (by omega))
        · have : i = k + 1 := by omega
          exact this ▸ List.mem_cons_self _ _
    rw [hrec, heq, hnk, List.range_succ_eq_map]
    simp only [List.map_cons, List.map_map]
    refine congrArg₂ List.cons (congrArg (withName p) (by omega)) ?_
    apply List.map_congr_left
    intro t _
    simp only [Function.comp_apply]
    exact congrArg (withName p) (by omega)

theorem splitLastMatch_none_of (ref : ImageRef) (l : List MoveRecord)
    (h : ∀ m ∈ l, m.image_id ≠ ref) : splitLastMatch ref l = none := by
  induction l with
  | nil => rfl
  | cons x rest ih =>
    rw [splitLastMatch, ih (fun m hm => h m (List.mem_cons_of_mem _ hm))]
    simp [h x (List.mem_cons_self _ _)]

theorem splitLastMatch_none_forall (ref : ImageRef) (l : List MoveRecord)
    (h : splitLastMatch ref l = none) : ∀ m ∈ l, m.image_id ≠ ref := by
  induction l with
  | nil => intro m hm; cases hm
  | cons x rest ih =>
    rw [splitLastMatch] at h
    cases hs : splitLastMatch ref rest with
    | some v =>
      rw [hs] at h
      obtain ⟨b, m', a⟩ := v
      cases h
    | none =>
      rw [hs] at h
      intro m hm
      rcases List.mem_cons.mp hm with rfl | hmem
      · intro hx
        rw [if_pos hx] at h
        cases h
      · exact ih hs m hmem

theorem splitLastMatch_some_spec (ref : ImageRef) :
    ∀ (l b : List MoveRecord) (m : MoveRecord) (a : List MoveRecord),
      splitLastMatch ref l = some (b, m, a) →
      l = b ++ m :: a ∧ m.image_id = ref ∧ ∀ x ∈ a, x.image_id ≠ ref := by
  intro l
  induction l with
  | nil => intro b m a h; cases h
  | cons y rest ih =>
    intro b m a h
    rw [splitLastMatch] at h
    cases hs : splitLastMatch ref rest with
    | some v =>
      obtain ⟨b', m', a'⟩ := v
      rw [hs] at h
      simp only [Option.some.injEq, Prod.mk.injEq] at h
      obtain ⟨hb, hm, ha⟩ := h
      obtain ⟨hl, hmm, hna⟩ := ih b' m' a' hs
      subst hb hm ha
      exact ⟨by rw [hl]; rfl, hmm, hna⟩
    | none =>
      rw [hs] at h
      by_cases hy : y.image_id = ref
      · rw [if_pos hy] at h
        simp only [Option.some.injEq, Prod.mk.injEq] at h
        obtain ⟨hb, hm, ha⟩ := h
        subst hb hm ha
        exact ⟨rfl, hy, splitLastMatch_none_forall ref rest hs⟩
      · rw [if_neg hy] at h
        cases h

theorem splitLastMatch_append_last (ref : ImageRef) (l : List MoveRecord)
    (m : MoveRecord) (hm : m.image_id = ref) :
    splitLastMatch ref (l ++ [m]) = some (l, m, []) := by
  induction l with
  | nil =>
    rw [List.nil_append, splitLastMatch]
    simp [splitLastMatch, hm]
  | cons y rest ih =>
    rw [List.cons_append, splitLastMatch, ih]

theorem lexLe_total : ∀ a b : List Char, lexLe a b = true ∨ lexLe b a = true
  | [], _ => Or.inl rfl
  | _ :: _, [] => Or.inr rfl
  | x :: xs, y :: ys => by
    rw [lexLe, lexLe]
    rcases Nat.lt_trichotomy x.toNat y.toNat with h | h | h
    · left
      rw [if_pos h]
    · rw [if_neg (by omega), if_neg (by omega), if_neg (by omega), if_neg (by omega)]
      exact lexLe_total xs ys
    · right
      rw [if_pos h]

theorem lexLe_trans : ∀ a b c : List Char,
    lexLe a b = true → lexLe b c = true → lexLe a c = true
  | [], _, _, _, _ => rfl
  | _ :: _, [], _, hab, _ => by simp [lexLe] at hab
  | _ :: _, _ :: _, [], _, hbc => by simp [lexLe] at hbc
  | x :: xs, y :: ys, z :: zs, hab, hbc => by
    rw [lexLe] at hab hbc ⊢
    rcases Nat.lt_trichotomy x.toNat y.toNat with h1 | h1 | h1 <;>
      rcases Nat.lt_trichotomy y.toNat z.toNat with h2 | h2 | h2
    · rw [if_pos (show x.toNat < z.toNat by omega)]
    · rw [if_pos (show x.toNat < z.toNat by omega)]
    · rw [if_neg (by omega), if_pos (by omega)] at hbc
      cases hbc
    · rw [if_pos (show x.toNat < z.toNat by omega)]
    · rw [if_neg (by omega), if_neg (by omega)] at hab
      rw [if_neg (by omega), if_neg (by omega)] at hbc
      rw [if_neg (by omega), if_neg (by omega)]
      exact lexLe_trans xs ys zs hab hbc
    · rw [if_neg (by omega), if_pos (by omega)] at hbc
      cases hbc
    · rw [if_neg (by omega), if_pos (by omega)] at hab
      cases hab
    · rw [if_neg (by omega), if_pos (by omega)] at hab
      cases hab
    · rw [if_neg (by omega), if_pos (by omega)] at hab
      cases hab

theorem insertSorted_perm (le : α → α → Bool) (a : α) :
    ∀ l : List α, List.Perm (insertSorted le a l) (a :: l)
  | [] => List.Perm.refl _
  | b :: bs => by
    rw [insertSorted]
    by_cases h : le a b = true
    · rw [if_pos h]
    · rw [if_neg h]
      exact (List.Perm.cons b (insertSorted_perm le a bs)).trans (List.Perm.swap a b bs)

theorem sortBy_perm (le : α → α → Bool) : ∀ l : List α, List.Perm (sortBy le l) l
  | [] => List.Perm.refl _
  | a :: as => (insertSorted_perm le a (sortBy le as)).trans
      (List.Perm.cons a (sortBy_perm le as))

theorem insertSorted_pairwise (le : α → α → Bool)
    (htot : ∀ x y, le x y = true ∨ le y x = true)
    (htrans : ∀ x y z, le x y = true → le y z = true → le x z = true)
    (a : α) : ∀ l : List α, l.Pairwise (fun x y => le x y = true) →
      (insertSorted le a l).Pairwise (fun x y => le x y = true)
  | [], _ => List.pairwise_singleton _ a
  | b :: bs, h => by
    obtain ⟨hb, hbs⟩ := List.pairwise_cons.mp h
    rw [insertSorted]
    by_cases hab : le a b = true
    · rw [if_pos hab]
      refine List.pairwise_cons.mpr ⟨?_, h⟩
      intro x hx
      rcases List.mem_cons.mp hx with rfl | hx1
      · exact hab
      · exact htrans a b x hab (hb x hx1)
    · rw [if_neg hab]
      refine List.pairwise_cons.mpr ⟨?_, insertSorted_pairwise le htot htrans a bs hbs⟩
      intro x hx
      have hx' := (insertSorted_perm le a bs).mem_iff.mp hx
      rcases List.mem_cons.mp hx' with rfl | hx1
      · rcases htot x b with h1 | h1
        · exact absurd h1 hab
        · exact h1
      · exact hb x hx1

theorem sortBy_pairwise (le : α → α → Bool)
    (htot : ∀ x y, le x y = true ∨ le y x = true)
    (htrans : ∀ x y z, le x y = true → le y z = true → le x z = true) :
    ∀ l : List α, (sortBy le l).Pairwise (fun x y => le x y = true)
  | [] => List.Pairwise.nil
  | a :: as => insertSorted_pairwise le htot htrans a (sortBy le as)
      (sortBy_pairwise le htot htrans as)

theorem nameLe_total (a b : DirEntry) : nameLe a b = true ∨ nameLe b a = true :=
  lexLe_total _ _

theorem nameLe_trans (a b c : DirEntry) (h1 : nameLe a b = true) (h2 : nameLe b c = true) :
    nameLe a c = true :=
  lexLe_trans _ _ _ h1 h2

theorem pyMinBy_mem : ∀ (fs : List PFile) (f : PFile), pyMinBy f fs ∈ f :: fs
  | [], _ => List.mem_singleton.mpr rfl
  | x :: xs, f => by
    have h := pyMinBy_mem xs (if x.mtime < f.mtime then x else f)
    have he : pyMinBy f (x :: xs) = pyMinBy (if x.mtime < f.mtime then x else f) xs := rfl
    rw [he]
    rcases List.mem_cons.mp h with h1 | h1
    · rw [h1]
      by_cases hc : x.mtime < f.mtime
      · rw [if_pos hc]
        exact List.mem_cons_of_mem _ (List.mem_cons_self _ _)
      · rw [if_neg hc]
        exact List.mem_cons_self _ _
    · exact List.mem_cons_of_mem _ (List.mem_cons_of_mem _ h1)

theorem pyMinBy_le : ∀ (fs : List PFile) (f g : PFile), g ∈ f :: fs →
    (pyMinBy f fs).mtime ≤ g.mtime
  | [], f, g, hg => by
    rcases List.mem_singleton.mp hg with rfl
    exact le_refl _
  | x :: xs, f, g, hg => by
    have he : pyMinBy f (x :: xs) = pyMinBy (if x.mtime < f.mtime then x else f) xs := rfl
    rw [he]
    have hf' : (if x.mtime < f.mtime then x else f).mtime ≤ f.mtime ∧
        (if x.mtime < f.mtime then x else f).mtime ≤ x.mtime := by
      by_cases hc : x.mtime < f.mtime
      · rw [if_pos hc]
        exact ⟨by omega, le_refl _⟩
      · rw [if_neg hc]
        exact ⟨le_refl _, by omega⟩
    rcases List.mem_cons.mp hg with rfl | hg1
    · exact le_trans (pyMinBy_le xs _ _ (List.mem_cons_self _ _)) hf'.1
    · rcases List.mem_cons.mp hg1 with rfl | hg2
      · exact le_trans (pyMinBy_le xs _ _ (List.mem_cons_self _ _)) hf'.2
      · exact pyMinBy_le xs _ g (List.mem_cons_of_mem _ hg2)

theorem pyMaxBy_mem : ∀ (fs : List PFile) (f : PFile), pyMaxBy f fs ∈ f :: fs
  | [], _ => List.mem_singleton.mpr rfl
  | x :: xs, f => by
    have h := pyMaxBy_mem xs (if f.mtime < x.mtime then x else f)
    have he : pyMaxBy f (x :: xs) = pyMaxBy (if f.mtime < x.mtime then x else f) xs := rfl
    rw [he]
    rcases List.mem_cons.mp h with h1 | h1
    · rw [h1]
      by_cases hc : f.mtime < x.mtime
      · rw [if_pos hc]
        exact List.mem_cons_of_mem _ (List.mem_cons_self _ _)
      · rw [if_neg hc]
        exact List.mem_cons_self _ _
    · exact List.mem_cons_of_mem _ (List.mem_cons_of_mem _ h1)

theorem pyMaxBy_ge : ∀ (fs : List PFile) (f g : PFile), g ∈ f :: fs →
    g.mtime ≤ (pyMaxBy f fs).mtime
  | [], f, g, hg => by
    rcases List.mem_singleton.mp hg with rfl
    exact le_refl _
  | x :: xs, f, g, hg => by
    have he : pyMaxBy f (x :: xs) = pyMaxBy (if f.mtime < x.mtime then x else f) xs := rfl
    rw [he]
    have hf' : f.mtime ≤ (if f.mtime < x.mtime then x else f).mtime ∧
        x.mtime ≤ (if f.mtime < x.mtime then x else f).mtime := by
      by_cases hc : f.mtime < x.mtime
      · rw [if_pos hc]
        exact ⟨by omega, le_refl _⟩
      · rw [if_neg hc]
        exact ⟨le_refl _, by omega⟩
    rcases List.mem_cons.mp hg with rfl | hg1
    · exact le_trans hf'.1 (pyMaxBy_ge xs _ _ (List.mem_cons_self _ _))
    · rcases List.mem_cons.mp hg1 with rfl | hg2
      · exact le_trans hf'.2 (pyMaxBy_ge xs _ _ (List.mem_cons_self _ _))
      · exact pyMaxBy_ge xs _ g (List.mem_cons_of_mem _ hg2)

theorem addToGroups_keys (k : String) (f : PFile) :
    ∀ gs : List (String × List PFile),
      (addToGroups gs k f).map Prod.fst =
        if k ∈ gs.map Prod.fst then gs.map Prod.fst else gs.map Prod.fst ++ [k]
  | [] => by simp [addToGroups]
  | (k', fs) :: rest => by
    rw [addToGroups]
    by_cases hk : k' = k
    · subst hk
      simp
    · rw [if_neg hk]
      simp only [List.map_cons, addToGroups_keys k f rest]
      by_cases hmem : k ∈ rest.map Prod.fst
      · rw [if_pos hmem, if_pos (List.mem_cons_of_mem _ hmem)]
      · rw [if_neg hmem, if_neg ?hn]
        · rfl
        case hn =>
          intro hc
          rcases List.mem_cons.mp hc with he | hm
          · exact hk he.symm
          · exact hmem hm

theorem addToGroups_mem (k : String) (f : PFile) :
    ∀ (gs : List (String × List PFile)) (kg : String × List PFile),
      kg ∈ addToGroups gs k f → ∀ x ∈ kg.2,
        (∃ kg' ∈ gs, kg'.1 = kg.1 ∧ x ∈ kg'.2) ∨ (x = f ∧ kg.1 = k)
  | [], kg, h, x, hx => by
    simp only [addToGroups, List.mem_singleton] at h
    subst h
    simp only [List.mem_singleton] at hx
    exact Or.inr ⟨hx, rfl⟩
  | (k', fs) :: rest, kg, h, x, hx => by
    rw [addToGroups] at h
    by_cases hk : k' = k
    · rw [if_pos hk] at h
      rcases List.mem_cons.mp h with rfl | hrest
      · rcases List.mem_append.mp hx with hxf | hxf
        · exact Or.inl ⟨(k', fs), List.mem_cons_self _ _, rfl, hxf⟩
        · simp only [List.mem_singleton] at hxf
          exact Or.inr ⟨hxf, hk⟩
      · exact Or.inl ⟨kg, List.mem_cons_of_mem _ hrest, rfl, hx⟩
    · rw [if_neg hk] at h
      rcases List.mem_cons.mp h with rfl | hrest
      · exact Or.inl ⟨(k', fs), List.mem_cons_self _ _, rfl, hx⟩
      · rcases addToGroups_mem k f rest kg hrest x hx with ⟨kg', hkg', he, hxm⟩ | hr
        · exact Or.inl ⟨kg', List.mem_cons_of_mem _ hkg', he, hxm⟩
        · exact Or.inr hr

theorem addToGroups_ne_nil (k : String) (f : PFile) :
    ∀ gs : List (String × List PFile), (∀ kg ∈ gs, kg.2 ≠ []) →
      ∀ kg ∈ addToGroups gs k f, kg.2 ≠ []
  | [], _, kg, h => by
    simp only [addToGroups, List.mem_singleton] at h
    subst h
    simp
  | (k', fs) :: rest, hall, kg, h => by
    rw [addToGroups] at h
    by_cases hk : k' = k
    · rw [if_pos hk] at h
      rcases List.mem_cons.mp h with rfl | hrest
      · simp
      · exact hall kg (List.mem_cons_of_mem _ hrest)
    · rw [if_neg hk] at h
      rcases List.mem_cons.mp h with rfl | hrest
      · exact hall (k', fs) (List.mem_cons_self _ _)
      · exact addToGroups_ne_nil k f rest
          (fun kg' hkg' => hall kg' (List.mem_cons_of_mem _ hkg')) kg hrest

theorem addToGroups_self (k : String) (f : PFile) :
    ∀ gs : List (String × List PFile), ∃ g, (k, g) ∈ addToGroups gs k f ∧ f ∈ g
  | [] => ⟨[f], by simp [addToGroups]⟩
  | (k', fs) :: rest => by
    rw [addToGroups]
    by_cases hk : k' = k
    · rw [if_pos hk]
      subst hk
      exact ⟨fs ++ [f], List.mem_cons_self _ _, List.mem_append_right _ (by simp)⟩
    · rw [if_neg hk]
      obtain ⟨g, hg, hfg⟩ := addToGroups_self k f rest
      exact ⟨g, List.mem_cons_of_mem _ hg, hfg⟩

theorem addToGroups_preserve (k : String) (f : PFile) :
    ∀ (gs : List (String × List PFile)) (k' : String) (g' : List PFile),
      (k', g') ∈ gs →
      ∃ g'', (k', g'') ∈ addToGroups gs k f ∧ ∀ x ∈ g', x ∈ g''
  | [], _, _, h => by cases h
  | (k0, fs0) :: rest, k', g', h => by
    rw [addToGroups]
    by_cases hk : k0 = k
    · rw [if_pos hk]
      rcases List.mem_cons.mp h with he | hrest
      · obtain ⟨he1, he2⟩ := Prod.mk.injEq .. ▸ he
        subst he1 he2
        exact ⟨g' ++ [f], List.mem_cons_self _ _, fun x hx => List.mem_append_left _ hx⟩
      · exact ⟨g', List.mem_cons_of_mem _ hrest, fun x hx => hx⟩
    · rw [if_neg hk]
      rcases List.mem_cons.mp h with he | hrest
      · obtain ⟨he1, he2⟩ := Prod.mk.injEq .. ▸ he
        subst he1 he2
        exact ⟨g', List.mem_cons_self _ _, fun x hx => hx⟩
      · obtain ⟨g'', hg'', hsub⟩ := addToGroups_preserve k f rest k' g' hrest
        exact ⟨g'', List.mem_cons_of_mem _ hg'', hsub⟩

theorem groupBy_fold_inv :
    ∀ (rest seen : List PFile) (gs : List (String × List PFile)),
      (gs.map Prod.fst).Nodup →
      (∀ kg ∈ gs, kg.2 ≠ [] ∧ ∀ x ∈ kg.2, x ∈ seen ∧ minute_key x.name = some kg.1) →
      (∀ x ∈ seen, ∀ k, minute_key x.name = some k → ∃ g, (k, g) ∈ gs ∧ x ∈ g) →
      ((rest.foldl gstep gs).map Prod.fst).Nodup ∧
      (∀ kg ∈ rest.foldl gstep gs, kg.2 ≠ [] ∧
        ∀ x ∈ kg.2, x ∈ seen ++ rest ∧ minute_key x.name = some kg.1) ∧
      (∀ x ∈ seen ++ rest, ∀ k, minute_key x.name = some k →
        ∃ g, (k, g) ∈ rest.foldl gstep gs ∧ x ∈ g)
  | [], seen, gs, hnd, hmem, hcomp => by
    simp only [List.foldl_nil, List.append_nil]
    exact ⟨hnd, hmem, hcomp⟩
  | f :: rest, seen, gs, hnd, hmem, hcomp => by
    rw [List.foldl_cons]
    have hmain :
        ((gstep gs f).map Prod.fst).Nodup ∧
        (∀ kg ∈ gstep gs f, kg.2 ≠ [] ∧
          ∀ x ∈ kg.2, x ∈ seen ++ [f] ∧ minute_key x.name = some kg.1) ∧
        (∀ x ∈ seen ++ [f], ∀ k, minute_key x.name = some k →
          ∃ g, (k, g) ∈ gstep gs f ∧ x ∈ g) := by
      rw [gstep]
      cases hkey : minute_key f.name with
      | none =>
        refine ⟨hnd, ?_, ?_⟩
        · intro kg hkg
          refine ⟨(hmem kg hkg).1, fun x hx => ?_⟩
          obtain ⟨hx1, hx2⟩ := (hmem kg hkg).2 x hx
          exact ⟨List.mem_append_left _ hx1, hx2⟩
        · intro x hx k hk
          rcases List.mem_append.mp hx with hx1 | hx1
          · exact hcomp x hx1 k hk
          · rcases List.mem_singleton.mp hx1 with rfl
            rw [hkey] at hk
            cases hk
      | some k0 =>
        refine ⟨?_, ?_, ?_⟩
        · rw [addToGroups_keys]
          by_cases hin : k0 ∈ gs.map Prod.fst
          · rw [if_pos hin]
            exact hnd
          · rw [if_neg hin]
            rw [List.nodup_append]
            exact ⟨hnd, List.nodup_singleton _, by simpa using hin⟩
        · intro kg hkg
          refine ⟨addToGroups_ne_nil k0 f gs (fun kg' hkg' => (hmem kg' hkg').1) kg hkg,
            fun x hx => ?_⟩
          rcases addToGroups_mem k0 f gs kg hkg x hx with ⟨kg', hkg', he, hxm⟩ | ⟨rfl, hke⟩
          · obtain ⟨hx1, hx2⟩ := (hmem kg' hkg').2 x hxm
            exact ⟨List.mem_append_left _ hx1, he ▸ hx2⟩
          · exact ⟨List.mem_append_right _ (by simp), hke ▸ hkey⟩
        · intro x hx k hk
          rcases List.mem_append.mp hx with hx1 | hx1
          · obtain ⟨g, hg, hxg⟩ := hcomp x hx1 k hk
            obtain ⟨g'', hg'', hsub⟩ := addToGroups_preserve k0 f gs k g hg
            exact ⟨g'', hg'', hsub x hxg⟩
          · have hxf : x = f := List.mem_singleton.mp hx1
            rw [hxf, hkey] at hk
            injection hk with hk
            rw [← hk, hxf]
            exact addToGroups_self k0 f gs
    obtain ⟨h1, h2, h3⟩ := hmain
    have := groupBy_fold_inv rest (seen ++ [f]) (gstep gs f) h1 h2 h3
    simpa [List.append_assoc] using this

theorem groupByMinute_inv (files : List PFile) :
    ((groupByMinute files).map Prod.fst).Nodup ∧
    (∀ kg ∈ groupByMinute files, kg.2 ≠ [] ∧
      ∀ x ∈ kg.2, x ∈ files ∧ minute_key x.name = some kg.1) ∧
    (∀ x ∈ files, ∀ k, minute_key x.name = some k →
      ∃ g, (k, g) ∈ groupByMinute files ∧ x ∈ g) := by
  have := groupBy_fold_inv files [] [] (by simp)
    (fun kg hkg => by cases hkg) (fun x hx => by cases hx)
  simpa [groupByMinute] using this

theorem key_entry_unique (gs : List (String × List PFile)) (hnd : (gs.map Prod.fst).Nodup)
    {k : String} {g1 g2 : List PFile} (h1 : (k, g1) ∈ gs) (h2 : (k, g2) ∈ gs) : g1 = g2 := by
  induction gs with
  | nil => cases h1
  | cons kg rest ih =>
    rw [List.map_cons, List.nodup_cons] at hnd
    rcases List.mem_cons.mp h1 with he1 | hr1 <;> rcases List.mem_cons.mp h2 with he2 | hr2
    · rw [← he1] at he2
      exact ((Prod.ext_iff.mp he2).2).symm
    · exact absurd (List.mem_map.mpr ⟨(k, g2), hr2, by rw [← he1]⟩) hnd.1
    · exact absurd (List.mem_map.mpr ⟨(k, g1), hr1, by rw [← he2]⟩) hnd.1
    · exact ih hnd.2 hr1 hr2

theorem choose_keep_some (f : PFile) (fs : List PFile) (strat : Strategy) :
    ∃ c, choose_keep (f :: fs) strat = some c := by
  cases strat
  · exact ⟨f, rfl⟩
  · exact ⟨pyMinBy f fs, rfl⟩
  · exact ⟨pyMaxBy f fs, rfl⟩

theorem choose_keep_mem (g : List PFile) (strat : Strategy) (c : PFile)
    (h : choose_keep g strat = some c) : c ∈ g := by
  match g with
  | [] => cases h
  | f :: fs =>
    cases strat
    · simp only [choose_keep, Option.some.injEq] at h
      exact h ▸ List.mem_cons_self _ _
    · simp only [choose_keep, Option.some.injEq] at h
      exact h ▸ pyMinBy_mem fs f
    · simp only [choose_keep, Option.some.injEq] at h
      exact h ▸ pyMaxBy_mem fs f

theorem pstep_eq (strat : Strategy) (acc : List PFile × List PFile)
    (kg : String × List PFile) :
    pstep strat acc kg = (acc.1 ++ groupKeep kg.2 strat, acc.2 ++ groupRemove kg.2 strat) := by
  obtain ⟨kk, g⟩ := kg
  match g with
  | [] => simp [pstep, groupKeep, groupRemove, choose_keep]
  | [f] => simp [pstep, groupKeep, groupRemove]
  | f1 :: f2 :: g' =>
    obtain ⟨c, hc⟩ := choose_keep_some f1 (f2 :: g') strat
    simp [pstep, groupKeep, groupRemove, hc]

theorem plan_foldl (strat : Strategy) :
    ∀ (groups : List (String × List PFile)) (k r : List PFile),
      groups.foldl (pstep strat) (k, r) =
        (k ++ (groups.map (fun kg => groupKeep kg.2 strat)).flatten,
         r ++ (groups.map (fun kg => groupRemove kg.2 strat)).flatten)
  | [], k, r => by simp
  | kg :: rest, k, r => by
    rw [List.foldl_cons, pstep_eq, plan_foldl strat rest]
    simp [List.append_assoc]

theorem plan_eq (files : List PFile) (strat : Strategy) :
    plan files strat =
      (((groupByMinute files).map (fun kg => groupKeep kg.2 strat)).flatten,
       ((groupByMinute files).map (fun kg => groupRemove kg.2 strat)).flatten) := by
  rw [plan, plan_foldl]
  simp

theorem groupKeep_subset (g : List PFile) (strat : Strategy) :
    ∀ x ∈ groupKeep g strat, x ∈ g := by
  match g with
  | [] =>
    intro x hx
    simp [groupKeep, choose_keep] at hx
  | [f] =>
    intro x hx
    simpa [groupKeep] using hx
  | f1 :: f2 :: g' =>
    obtain ⟨c, hc⟩ := choose_keep_some f1 (f2 :: g') strat
    intro x hx
    simp only [groupKeep, hc, List.mem_singleton] at hx
    exact hx ▸ choose_keep_mem _ strat c hc

theorem groupRemove_subset (g : List PFile) (strat : Strategy) :
    ∀ x ∈ groupRemove g strat, x ∈ g := by
  match g with
  | [] =>
    intro x hx
    simp [groupRemove, choose_keep] at hx
  | [f] =>
    intro x hx
    simp [groupRemove] at hx
  | f1 :: f2 :: g' =>
    obtain ⟨c, hc⟩ := choose_keep_some f1 (f2 :: g') strat
    intro x hx
    simp only [groupRemove, hc] at hx
    exact List.mem_of_mem_filter hx

theorem group_partition (g : List PFile) (strat : Strategy) (x : PFile) (hx : x ∈ g) :
    (x ∈ groupKeep g strat ∨ x ∈ groupRemove g strat) ∧
    ¬(x ∈ groupKeep g strat ∧ x ∈ groupRemove g strat) := by
  match g with
  | [] => cases hx
  | [f] =>
    rcases List.mem_singleton.mp hx with rfl
    refine ⟨Or.inl (by simp [groupKeep]), ?_⟩
    rintro ⟨-, hr⟩
    simp [groupRemove] at hr
  | f1 :: f2 :: g' =>
    obtain ⟨c, hc⟩ := choose_keep_some f1 (f2 :: g') strat
    by_cases hxc : x = c
    · refine ⟨Or.inl (by simp [groupKeep, hc, hxc]), ?_⟩
      rintro ⟨-, hr⟩
      simp only [groupRemove, hc, List.mem_filter] at hr
      exact absurd hxc (by simpa using hr.2)
    · refine ⟨Or.inr ?_, ?_⟩
      · simp only [groupRemove, hc, List.mem_filter]
        exact ⟨hx, by simpa using hxc⟩
      · rintro ⟨hk, -⟩
        simp only [groupKeep, hc, List.mem_singleton] at hk
        exact hxc hk

theorem groupKeep_eq (g : List PFile) (strat : Strategy) (hne : g ≠ []) :
    ∃ c, groupKeep g strat = [c] ∧ c ∈ g := by
  match g with
  | [] => exact absurd rfl hne
  | [f] => exact ⟨f, rfl, List.mem_singleton.mpr rfl⟩
  | f1 :: f2 :: g' =>
    obtain ⟨c, hc⟩ := choose_keep_some f1 (f2 :: g') strat
    refine ⟨c, ?_, choose_keep_mem _ strat c hc⟩
    simp [groupKeep, hc]

theorem mem_plan_keep_iff (files : List PFile) (strat : Strategy) (x : PFile) :
    x ∈ (plan files strat).1 ↔
      ∃ kg, kg ∈ groupByMinute files ∧ x ∈ groupKeep kg.2 strat := by
  rw [plan_eq]
  simp only [List.mem_flatten, List.mem_map]
  constructor
  · rintro ⟨s, ⟨kg, hkg, rfl⟩, hx⟩
    exact ⟨kg, hkg, hx⟩
  · rintro ⟨kg, hkg, hx⟩
    exact ⟨groupKeep kg.2 strat, ⟨kg, hkg, rfl⟩, hx⟩

theorem mem_plan_remove_iff (files : List PFile) (strat : Strategy) (x : PFile) :
    x ∈ (plan files strat).2 ↔
      ∃ kg, kg ∈ groupByMinute files ∧ x ∈ groupRemove kg.2 strat := by
  rw [plan_eq]
  simp only [List.mem_flatten, List.mem_map]
  constructor
  · rintro ⟨s, ⟨kg, hkg, rfl⟩, hx⟩
    exact ⟨kg, hkg, hx⟩
  · rintro ⟨kg, hkg, hx⟩
    exact ⟨groupRemove kg.2 strat, ⟨kg, hkg, rfl⟩, hx⟩

/-- C5: `_unique_path` returns the candidate unchanged when unoccupied;
otherwise it returns the first `<stem>_<n><ext>` (n = 1, 2, ... in
increasing order) that is unoccupied; the returned path never exists at
call time; and N successive colliding requests (each claiming its result)
yield the N distinct paths `_1, _2, ..., _N` in order. -/
theorem C5_unique_path_spec (fs : List FPath) (p : FPath) (N : Nat) :
    (p ∉ fs → _unique_path fs p = p) ∧
    _unique_path fs p ∉ fs ∧
    (p ∈ fs → ∃ n, 1 ≤ n ∧ _unique_path fs p = withName p n ∧ withName p n ∉ fs ∧
      ∀ m, 1 ≤ m → m < n → withName p m ∈ fs) ∧
    (p ∈ fs → (∀ i, 1 ≤ i → withName p i ∉ fs) →
      claimSeq fs p N = (List.range N).map (fun t => withName p (t + 1)) ∧
      (claimSeq fs p N).Nodup) := by
  refine ⟨fun h => _unique_path_of_not_mem h, _unique_path_not_mem fs p,
    fun h => _unique_path_first_free h, fun hp hfree => ?_⟩
  have he := claimSeq_eq p N fs 0 hp (fun i hi =>
    ⟨fun hmem => absurd hmem (hfree i hi), fun hle => absurd hle (by omega)⟩)
  constructor
  · rw [he]
    apply List.map_congr_left
    intro t _
    exact congrArg (withName p) (by omega)
  · rw [he]
    refine List.Nodup.map ?_ (List.nodup_range _)
    intro a b hab
    have := withName_inj hab
    omega

/-- Witness for C5 at a concrete occupied candidate: two successive
colliding requests produce `img_1.jpg` then `img_2.jpg`. -/
theorem C5_unique_path_spec_witness :
    claimSeq [w5p] w5p 2 = [withName w5p 1, withName w5p 2] ∧
    _unique_path [w5p] w5p ∉ [w5p] := by
  obtain ⟨h1, h2, h3, h4⟩ := C5_unique_path_spec [w5p] w5p 2
  obtain ⟨he, hnd⟩ := h4 (List.mem_singleton.mpr rfl)
    (fun i _ hmem => absurd (List.mem_singleton.mp hmem) (withName_ne_self w5p i))
  refine ⟨?_, h2⟩
  rw [he]
  rfl

/-- C9: when the decoded source location does not exist (and the request
would otherwise proceed, i.e. the category is valid), `classify` fails with
`SourceNotFound` and returns the state unchanged; moreover on every failure
path of `classify` the ledger is exactly as before the call. -/
theorem C9_classify_source_not_found (validCats : List String) (s : SysState)
    (ref : ImageRef) (cat : String) :
    (cat ∈ validCats → ref.srcPath ∉ s.fs →
      classify validCats s ref cat = (s, .error .sourceNotFound)) ∧
    (∀ e : ClassifyError, (classify validCats s ref cat).2 = .error e →
      (classify validCats s ref cat).1.history = s.history) := by
  constructor
  · intro hcat hsrc
    simp only [classify]
    rw [if_neg (not_not_intro hcat), if_pos hsrc]
  · intro e he
    by_cases h1 : cat ∉ validCats
    · have h : classify validCats s ref cat = (s, .error .invalidCategory) := by
        simp only [classify]
        rw [if_pos h1]
      rw [h]
    · by_cases h2 : ref.srcPath ∉ s.fs
      · have h : classify validCats s ref cat = (s, .error .sourceNotFound) := by
          simp only [classify]
          rw [if_neg h1, if_pos h2]
        rw [h]
      · exfalso
        have h : (classify validCats s ref cat).2 = .ok (_unique_path s.fs
            ⟨categoryDir cat, ref.srcPath.stem, ref.srcPath.ext⟩) := by
          simp only [classify]
          rw [if_neg h1, if_neg h2]
        rw [h] at he
        cases he

/-- Witness for C9: a stale reference over an empty filesystem fails with
`SourceNotFound` and leaves the (empty) ledger untouched. -/
theorem C9_classify_source_not_found_witness :
    classify ["unknown"] w9s w9ref "unknown" = (w9s, .error .sourceNotFound) :=
  (C9_classify_source_not_found ["unknown"] w9s w9ref "unknown").1 (by decide) (by decide)

/-- C10: the effective limit is clamped below to 1: with `limit ≤ 0` the
returned page holds exactly one item whenever a qualifying file lies at or
after the (clamped) offset. -/
theorem C10_limit_clamped_below (entries : List DirEntry) (offset limit : Int)
    (hlim : limit ≤ 0)
    (hoff : (if offset < 0 then (0 : Int) else offset).toNat <
      ((sortBy nameLe entries).filter eligible).length) :
    (list_images entries offset limit).1.length = 1 := by
  simp only [list_images]
  have hmin : min limit 1000 = limit := min_eq_left (by omega)
  have hmax : max 1 (min limit 1000) = 1 := by
    rw [hmin]
    exact max_eq_left (by omega)
  rw [hmax]
  simp only [List.length_take, List.length_drop]
  omega

/-- Witness for C10: `limit = 0` over two qualifying files still returns a
one-item page. -/
theorem C10_limit_clamped_below_witness :
    (list_images w10entries 0 0).1.length = 1 :=
  C10_limit_clamped_below w10entries 0 0 (by decide) (by decide)

/-- C8: `list_images` returns only eligible files of the directory, in
lexicographic filename order; `total` is the full matching population; the
page never exceeds the clamped limit; a negative offset behaves as offset
zero; and over five qualifying files, `offset = 0, limit = 2` returns
exactly the first two names with `total = 5`. -/
theorem C8_list_images_spec (entries : List DirEntry) (offset limit : Int) :
    (list_images entries offset limit).2 = (entries.filter eligible).length ∧
    (∀ e ∈ (list_images entries offset limit).1, e ∈ entries ∧ eligible e = true) ∧
    (list_images entries offset limit).1.Pairwise (fun a b => nameLe a b = true) ∧
    (1 ≤ limit → (list_images entries offset limit).1.length ≤ (min limit 1000).toNat) ∧
    (offset < 0 → list_images entries offset limit = list_images entries 0 limit) ∧
    list_images exEntries 0 2 = ([⟨"aa", ".jpg", true⟩, ⟨"bb", ".jpeg", true⟩], 5) := by
  refine ⟨?_, ?_, ?_, ?_, ?_, by decide⟩
  · simp only [list_images]
    exact ((sortBy_perm nameLe entries).filter eligible).length_eq
  · intro e he
    simp only [list_images] at he
    have h1 : e ∈ (sortBy nameLe entries).filter eligible :=
      ((List.take_sublist _ _).trans (List.drop_sublist _ _)).subset he
    obtain ⟨h2, h3⟩ := List.mem_filter.mp h1
    exact ⟨(sortBy_perm nameLe entries).subset h2, h3⟩
  · simp only [list_images]
    refine List.Pairwise.sublist ((List.take_sublist _ _).trans (List.drop_sublist _ _)) ?_
    exact (sortBy_pairwise nameLe nameLe_total nameLe_trans entries).filter _
  · intro hlim
    simp only [list_images]
    have hmax : max 1 (min limit 1000) = min limit 1000 :=
      max_eq_right (le_min hlim (by omega))
    rw [hmax]
    exact le_trans (List.length_take_le _ _) (le_refl _)
  · intro hoff
    simp only [list_images]
    rw [if_pos hoff, if_neg (by omega : ¬ (0 : Int) < 0)]

/-- Witness for C8 at `offset = -3, limit = 2`: both clamping hypotheses are
dischargeable and the page length respects the clamped limit. -/
theorem C8_list_images_spec_witness :
    (list_images exEntries (-3) 2).1.length ≤ (min (2 : Int) 1000).toNat ∧
    list_images exEntries (-3) 2 = list_images exEntries 0 2 :=
  ⟨(C8_list_images_spec exEntries (-3) 2).2.2.2.1 (by decide),
   (C8_list_images_spec exEntries (-3) 2).2.2.2.2.1 (by decide)⟩

/-- C6: `plan` partitions its bucketable input exactly: every input file
with a minute key lands in exactly one of keep and remove, files without a
key land in neither, and both lists draw only from the input. -/
theorem C6_plan_partition (files : List PFile) (strat : Strategy) :
    (∀ f ∈ files, (minute_key f.name).isSome = true →
      ((f ∈ (plan files strat).1 ∨ f ∈ (plan files strat).2) ∧
       ¬(f ∈ (plan files strat).1 ∧ f ∈ (plan files strat).2))) ∧
    (∀ f : PFile, minute_key f.name = none →
      f ∉ (plan files strat).1 ∧ f ∉ (plan files strat).2) ∧
    (∀ f : PFile, f ∈ (plan files strat).1 ∨ f ∈ (plan files strat).2 → f ∈ files) := by
  obtain ⟨hnd, hmem, hcomp⟩ := groupByMinute_inv files
  refine ⟨?_, ?_, ?_⟩
  · intro f hf hsome
    obtain ⟨k, hk⟩ := Option.isSome_iff_exists.mp hsome
    obtain ⟨g, hg, hfg⟩ := hcomp f hf k hk
    obtain ⟨hor, hnand⟩ := group_partition g strat f hfg
    constructor
    · rcases hor with h | h
      · exact Or.inl ((mem_plan_keep_iff files strat f).mpr ⟨(k, g), hg, h⟩)
      · exact Or.inr ((mem_plan_remove_iff files strat f).mpr ⟨(k, g), hg, h⟩)
    · rintro ⟨hkp, hrm⟩
      obtain ⟨kg1, hkg1, hin1⟩ := (mem_plan_keep_iff files strat f).mp hkp
      obtain ⟨kg2, hkg2, hin2⟩ := (mem_plan_remove_iff files strat f).mp hrm
      have hf1 : f ∈ kg1.2 := groupKeep_subset _ strat f hin1
      have hf2 : f ∈ kg2.2 := groupRemove_subset _ strat f hin2
      have hk1 : minute_key f.name = some kg1.1 := ((hmem kg1 hkg1).2 f hf1).2
      have hk2 : minute_key f.name = some kg2.1 := ((hmem kg2 hkg2).2 f hf2).2
      have hkeq : kg1.1 = kg2.1 := by
        rw [hk1] at hk2
        injection hk2
      have hmem1 : (kg1.1, kg1.2) ∈ groupByMinute files := hkg1
      have hmem2 : (kg1.1, kg2.2) ∈ groupByMinute files := by
        rw [hkeq]
        exact hkg2
      have hge : kg1.2 = kg2.2 := key_entry_unique _ hnd hmem1 hmem2
      have hpart := (group_partition kg1.2 strat f hf1).2
      exact hpart ⟨hin1, hge ▸ hin2⟩
  · intro f hnone
    constructor
    · intro hkp
      obtain ⟨kg, hkg, hin⟩ := (mem_plan_keep_iff files strat f).mp hkp
      have := ((hmem kg hkg).2 f (groupKeep_subset _ strat f hin)).2
      rw [hnone] at this
      cases this
    · intro hrm
      obtain ⟨kg, hkg, hin⟩ := (mem_plan_remove_iff files strat f).mp hrm
      have := ((hmem kg hkg).2 f (groupRemove_subset _ strat f hin)).2
      rw [hnone] at this
      cases this
  · intro f hor
    rcases hor with h | h
    · obtain ⟨kg, hkg, hin⟩ := (mem_plan_keep_iff files strat f).mp h
      exact ((hmem kg hkg).2 f (groupKeep_subset _ strat f hin)).1
    · obtain ⟨kg, hkg, hin⟩ := (mem_plan_remove_iff files strat f).mp h
      exact ((hmem kg hkg).2 f (groupRemove_subset _ strat f hin)).1

/-- Witness for C6 on a concrete population: two files of the same minute
partition into one kept and one removed, and the unmatched file appears in
neither list. -/
theorem C6_plan_partition_witness :
    ((w6a ∈ (plan [w6a, w6b, w6c] .first_seen).1 ∨
      w6a ∈ (plan [w6a, w6b, w6c] .first_seen).2) ∧
     ¬(w6a ∈ (plan [w6a, w6b, w6c] .first_seen).1 ∧
       w6a ∈ (plan [w6a, w6b, w6c] .first_seen).2)) ∧
    (w6c ∉ (plan [w6a, w6b, w6c] .first_seen).1 ∧
     w6c ∉ (plan [w6a, w6b, w6c] .first_seen).2) := by
  obtain ⟨h1, h2, h3⟩ := C6_plan_partition [w6a, w6b, w6c] .first_seen
  exact ⟨h1 w6a (by decide) (by decide), h2 w6c (by decide)⟩

/-- C7: for a non-empty duplicate group, `choose_keep` picks the first file
under `first_seen`, a file of minimum modification time under `oldest`, and
a file of maximum modification time under `newest`; a file that is alone
under its minute key is always kept by `plan`; and on the three example
files under `oldest`, the two sharing minute `20250816_0601` collapse to the
one with the smaller mtime while the `0602` file is kept. -/
theorem C7_choose_keep_spec :
    (∀ (f : PFile) (fs : List PFile), choose_keep (f :: fs) .first_seen = some f) ∧
    (∀ (f : PFile) (fs : List PFile), ∃ s, choose_keep (f :: fs) .oldest = some s ∧
      s ∈ f :: fs ∧ ∀ g ∈ f :: fs, s.mtime ≤ g.mtime) ∧
    (∀ (f : PFile) (fs : List PFile), ∃ s, choose_keep (f :: fs) .newest = some s ∧
      s ∈ f :: fs ∧ ∀ g ∈ f :: fs, g.mtime ≤ s.mtime) ∧
    (∀ (files : List PFile) (strat : Strategy) (f : PFile), f ∈ files →
      (minute_key f.name).isSome = true →
      (∀ g ∈ files, minute_key g.name = minute_key f.name → g = f) →
      f ∈ (plan files strat).1) ∧
    plan [ex2, ex1, ex3] .oldest = ([ex1, ex3], [ex2]) := by
  refine ⟨fun f fs => rfl, ?_, ?_, ?_, by decide⟩
  · intro f fs
    exact ⟨pyMinBy f fs, rfl, pyMinBy_mem fs f, fun g hg => pyMinBy_le fs f g hg⟩
  · intro f fs
    exact ⟨pyMaxBy f fs, rfl, pyMaxBy_mem fs f, fun g hg => pyMaxBy_ge fs f g hg⟩
  · intro files strat f hf hsome huniq
    obtain ⟨hnd, hmem, hcomp⟩ := groupByMinute_inv files
    obtain ⟨k, hk⟩ := Option.isSome_iff_exists.mp hsome
    obtain ⟨g, hg, hfg⟩ := hcomp f hf k hk
    have hne : g ≠ [] := (hmem (k, g) hg).1
    obtain ⟨c, hck, hcg⟩ := groupKeep_eq g strat hne
    have hcf : c = f := by
      have h1 := (hmem (k, g) hg).2 c hcg
      refine huniq c h1.1 ?_
      rw [h1.2, hk]
    refine (mem_plan_keep_iff files strat f).mpr ⟨(k, g), hg, ?_⟩
    rw [hck, hcf]
    exact List.mem_singleton.mpr rfl

/-- Witness for C7: singleton-group preservation applied to the concrete
`0602` file inside the three-file example, and the `first_seen` head law at
a concrete group. -/
theorem C7_choose_keep_spec_witness :
    ex3 ∈ (plan [ex2, ex1, ex3] .oldest).1 ∧
    choose_keep [ex2, ex1] .first_seen = some ex2 := by
  obtain ⟨h1, h2, h3, h4, h5⟩ := C7_choose_keep_spec
  refine ⟨h4 [ex2, ex1, ex3] .oldest ex3 (by decide) (by decide) ?_, h1 ex2 [ex1]⟩
  intro g hg hkey
  rcases List.mem_cons.mp hg with rfl | hg1
  · exfalso
    revert hkey
    decide
  · rcases List.mem_cons.mp hg1 with rfl | hg2
    · exfalso
      revert hkey
      decide
    · rcases List.mem_singleton.mp hg2 with rfl
      rfl

/-- C3: for a valid category and an existing source, `classify` then `undo`
on the same reference restores the file to its exact original path (nothing
else runs in between, so no collision can occur), leaves the filesystem
with exactly its original membership, and removes the record, so a ledger
that held no record for the reference before holds none after. -/
theorem C3_classify_then_undo (validCats : List String) (s : SysState) (ref : ImageRef)
    (cat : String) (hcat : cat ∈ validCats) (hsrc : ref.srcPath ∈ s.fs)
    (hled : ∀ m ∈ s.history, m.image_id ≠ ref) :
    ∃ target : FPath,
      (classify validCats s ref cat).2 = .ok target ∧
      (undo (classify validCats s ref cat).1 ref).2 = .ok ref.srcPath ∧
      ref.srcPath ∈ (undo (classify validCats s ref cat).1 ref).1.fs ∧
      target ∉ (undo (classify validCats s ref cat).1 ref).1.fs ∧
      (∀ q : FPath, q ∈ (undo (classify validCats s ref cat).1 ref).1.fs ↔ q ∈ s.fs) ∧
      (undo (classify validCats s ref cat).1 ref).1.history = s.history ∧
      (∀ m ∈ (undo (classify validCats s ref cat).1 ref).1.history, m.image_id ≠ ref) := by
  set target := _unique_path s.fs ⟨categoryDir cat, ref.srcPath.stem, ref.srcPath.ext⟩
    with htarget
  have hclass : classify validCats s ref cat =
      (⟨target :: s.fs.filter (fun q => q ≠ ref.srcPath),
        s.history ++ [⟨ref, ref.srcPath, target⟩]⟩, .ok target) := by
    simp only [classify]
    rw [if_neg (not_not_intro hcat), if_neg (not_not_intro hsrc)]
  have htnm : target ∉ s.fs := htarget ▸ _unique_path_not_mem s.fs _
  have htne : target ≠ ref.srcPath := fun he => htnm (he ▸ hsrc)
  have hsplit : splitLastMatch ref (s.history ++ [⟨ref, ref.srcPath, target⟩]) =
      some (s.history, ⟨ref, ref.srcPath, target⟩, []) :=
    splitLastMatch_append_last ref s.history _ rfl
  have hfs1 : target ∈ target :: s.fs.filter (fun q => q ≠ ref.srcPath) :=
    List.mem_cons_self _ _
  have hsrc1 : ref.srcPath ∉ target :: s.fs.filter (fun q => q ≠ ref.srcPath) := by
    intro hc
    rcases List.mem_cons.mp hc with he | hf
    · exact htne he.symm
    · have := List.of_mem_filter hf
      simp at this
  have hundo : undo (classify validCats s ref cat).1 ref =
      (⟨ref.srcPath :: (target :: s.fs.filter (fun q => q ≠ ref.srcPath)).filter
          (fun q => q ≠ target), s.history ++ []⟩, .ok ref.srcPath) := by
    rw [hclass]
    simp only [undo, hsplit]
    rw [if_pos hfs1, if_pos hsrc1]
  refine ⟨target, by rw [hclass], by rw [hundo], ?_, ?_, ?_, by rw [hundo]; simp, ?_⟩
  · rw [hundo]
    exact List.mem_cons_self _ _
  · rw [hundo]
    intro hc
    rcases List.mem_cons.mp hc with he | hf
    · exact htne he
    · have := List.of_mem_filter hf
      simp at this
  · intro q
    rw [hundo]
    simp only [List.mem_cons, List.mem_filter, decide_eq_true_eq]
    constructor
    · rintro (rfl | ⟨(rfl | ⟨hq, -⟩), hne⟩)
      · exact hsrc
      · exact absurd rfl hne
      · exact hq
    · intro hq
      by_cases hqs : q = ref.srcPath
      · exact Or.inl hqs
      · exact Or.inr ⟨Or.inr ⟨hq, hqs⟩, fun he => htnm (he ▸ hq)⟩
  · rw [hundo]
    simp only [List.append_nil]
    exact hled

/-- Witness for C3: a concrete classify-then-undo round trip restores the
single file and empties the ledger. -/
theorem C3_classify_then_undo_witness :
    (undo (classify ["unknown"] w3s w3ref "unknown").1 w3ref).2 = .ok w3src ∧
    w3src ∈ (undo (classify ["unknown"] w3s w3ref "unknown").1 w3ref).1.fs ∧
    (undo (classify ["unknown"] w3s w3ref "unknown").1 w3ref).1.history = [] := by
  obtain ⟨t, h1, h2, h3, h4, h5, h6, h7⟩ :=
    C3_classify_then_undo ["unknown"] w3s w3ref "unknown" (by decide) (by decide)
      (fun m hm => by cases hm)
  exact ⟨h2, h3, h6⟩

/-- Counterexample to C1: the sole ledger record for the reference has a
recorded new location that does not exist on disk, yet `undo` does not fail
with `NoSuchMove` — it reports success and removes the record, changing the
ledger. -/
theorem C1_counterexample_stale_record :
    c1new ∉ c1state.fs ∧
    (undo c1state c1ref).2 ≠ .error .noSuchMove ∧
    (undo c1state c1ref).2 = .ok c1orig ∧
    (undo c1state c1ref).1.history = [] ∧
    (undo c1state c1ref).1.history ≠ c1state.history := by
  decide

/-- C1 amended: `undo` fails with `NoSuchMove` exactly when no ledger
record for the reference exists; when the most recent matching record's
recorded new location no longer exists on disk, `undo` instead removes that
record, reports success with the recorded original path, and leaves the
filesystem untouched. -/
theorem C1_undo_no_such_move (s : SysState) (ref : ImageRef) :
    ((undo s ref).2 = .error .noSuchMove ↔ ∀ m ∈ s.history, m.image_id ≠ ref) ∧
    (∀ (b : List MoveRecord) (m : MoveRecord) (a : List MoveRecord),
      splitLastMatch ref s.history = some (b, m, a) → m.new_path ∉ s.fs →
      undo s ref = (⟨s.fs, b ++ a⟩, .ok m.original_path)) := by
  constructor
  · cases hs : splitLastMatch ref s.history with
    | none =>
      have hu : undo s ref = (s, .error .noSuchMove) := by
        simp only [undo, hs]
      rw [hu]
      exact ⟨fun _ => splitLastMatch_none_forall ref s.history hs, fun _ => rfl⟩
    | some v =>
      obtain ⟨b, m, a⟩ := v
      obtain ⟨hl, hm, -⟩ := splitLastMatch_some_spec ref s.history b m a hs
      have hmem : m ∈ s.history := by
        rw [hl]
        exact List.mem_append_right _ (List.mem_cons_self _ _)
      constructor
      · intro he
        exfalso
        by_cases hnp : m.new_path ∈ s.fs
        · have hu : (undo s ref).2 = .ok m.original_path := by
            simp only [undo, hs]
            rw [if_pos hnp]
          rw [hu] at he
          cases he
        · have hu : (undo s ref).2 = .ok m.original_path := by
            simp only [undo, hs]
            rw [if_neg hnp]
          rw [hu] at he
          cases he
      · intro hall
        exact absurd hm (hall m hmem)
  · intro b m a hs hnp
    simp only [undo, hs]
    rw [if_neg hnp]

/-- Witness for C1 (amended): at the concrete stale record, `undo` removes
the record and reports the recorded original path without touching the
filesystem; and on an empty ledger the failure is `NoSuchMove`. -/
theorem C1_undo_no_such_move_witness :
    undo c1state c1ref = (⟨c1state.fs, []⟩, .ok c1orig) ∧
    (undo ⟨[], []⟩ c1ref).2 = .error .noSuchMove := by
  constructor
  · have h := (C1_undo_no_such_move c1state c1ref).2 [] ⟨c1ref, c1orig, c1new⟩ []
      (by decide) (by decide)
    simpa using h
  · exact ((C1_undo_no_such_move ⟨[], []⟩ c1ref).1).mpr (fun m hm => by cases hm)

/-- C4 at the failing input: the original location is occupied at undo
time, so the file is moved to the collision-safe alternate `y_1.jpg`
(which then exists, while the recorded new location no longer does), the
single record is removed — but the response reports the occupied original
path, not the alternate the file was actually restored to. -/
theorem C4_returned_location_diverges :
    (undo c4state c4ref).2 = .ok c4orig ∧
    withName c4orig 1 ∈ (undo c4state c4ref).1.fs ∧
    c4orig ∈ (undo c4state c4ref).1.fs ∧
    c4new ∉ (undo c4state c4ref).1.fs ∧
    withName c4orig 1 ≠ c4orig ∧
    (undo c4state c4ref).1.history = [] := by
  decide

/-- Counterexample to C2: a reference file named `not_a_cat.jpg` is NOT
excluded by discovery (the code's filter skips `'not_cat'`, not
`'not_a_cat'`), so the reserved identifier `not_a_cat` is discovered and
then appears twice in the category listing. -/
theorem C2_counterexample_not_a_cat :
    _discover_cat_names [c2entry] = ["not_a_cat"] ∧
    List.count "not_a_cat" (categoryKeys [c2entry]) = 2 := by
  decide

/-- C2 amended: discovery excludes the stems `'unknown'` and `'not_cat'`
(lower-cased), so `unknown` appears exactly once in the category listing;
a file with stem `not_a_cat` is not excluded, so `not_a_cat` occurs once
per discovered occurrence plus once as the appended special. -/
theorem C2_discovery_reserved (entries : List DirEntry) :
    (∀ name ∈ _discover_cat_names entries, name ≠ "unknown" ∧ name ≠ "not_cat") ∧
    List.count "unknown" (categoryKeys entries) = 1 ∧
    List.count "not_a_cat" (categoryKeys entries) =
      List.count "not_a_cat" (_discover_cat_names entries) + 1 := by
  have hmem : ∀ name ∈ _discover_cat_names entries,
      name ≠ "unknown" ∧ name ≠ "not_cat" := by
    intro name hname
    obtain ⟨p, hp, hf⟩ := List.mem_filterMap.mp hname
    by_cases hc1 : p.isFile = true ∧ strLower p.ext ∈ imageExts
    · rw [if_pos hc1] at hf
      by_cases hc2 : strLower p.stem = "unknown" ∨ strLower p.stem = "not_cat"
      · rw [if_pos hc2] at hf
        cases hf
      · rw [if_neg hc2] at hf
        injection hf with hf
        push_neg at hc2
        exact hf ▸ hc2
    · rw [if_neg hc1] at hf
      cases hf
  refine ⟨hmem, ?_, ?_⟩
  · rw [categoryKeys, List.count_append]
    have h0 : List.count "unknown" (_discover_cat_names entries) = 0 :=
      List.count_eq_zero.mpr (fun hc => (hmem _ hc).1 rfl)
    rw [h0]
    decide
  · rw [categoryKeys, List.count_append]
    have h1 : List.count "not_a_cat" ["unknown", "not_a_cat"] = 1 := by decide
    rw [h1]

/-- Witness for C2 (amended) at the concrete `not_a_cat.jpg` listing. -/
theorem C2_discovery_reserved_witness :
    List.count "unknown" (categoryKeys [c2entry]) = 1 ∧
    List.count "not_a_cat" (categoryKeys [c2entry]) =
      List.count "not_a_cat" (_discover_cat_names [c2entry]) + 1 :=
  ⟨(C2_discovery_reserved [c2entry]).2.1, (C2_discovery_reserved [c2entry]).2.2⟩
